import Mathlib

/-!
Verification of a fixed-capacity chained hash map (`src/src/lib.rs`).

The Rust code stores, for each of `DEFAULT_MAX_SIZE = 256` slots, an
`Option<KeyValue<K, V>>`, where `KeyValue` is a singly-linked list node
`{ key, value, next: Option<Box<KeyValue>> }`.  Public operations are
`insert`, `get`, `remove`, `clear`, `new`.

Embedding choices:
* `KeyValue` is a nested inductive mirroring the Rust struct; a slot is an
  `Option (KeyValue K V)` exactly as in the source.
* The bucket array `[Option<KeyValue<K,V>>; 256]` is a total function
  `Fin DEFAULT_MAX_SIZE → Option (KeyValue K V)`.
* Rust's `hash_key` (SipHash via `DefaultHasher`) is abstracted as a
  parameter `hash_key : K → Nat`: it is an arbitrary pure function of the
  key, which is exactly what the code relies on.  Key comparison `==` on a
  `PartialEq` key type is modelled by decidable propositional equality.
* Each Rust `while` loop over `next` pointers becomes structural recursion
  over the chain.  The in-place mutations (`std::mem::replace`,
  `Option::take`, `Option::replace`) become functional reconstruction of
  the chain with the same shape.
* `curr_size: usize` is a `Nat`; the single unguarded-looking decrement
  `self.curr_size -= 1` in `remove` is modelled by truncated subtraction,
  and its non-underflow is proved separately for reachable tables.
-/

set_option autoImplicit false

namespace HashRs

/-- `const DEFAULT_MAX_SIZE: u64 = 256;` -/
def DEFAULT_MAX_SIZE : Nat := 256

/-- `struct KeyValue<K, V> { key: K, value: V, next: Option<Box<KeyValue<K, V>>> }` -/
inductive KeyValue (K V : Type) : Type where
  | mk (key : K) (value : V) (next : Option (KeyValue K V)) : KeyValue K V

variable {K V : Type}

namespace KeyValue

/-- The chain walk of `get`: check the current node's key, then follow `next`.
This is the loop body of `HashMap::get` restricted to one (non-empty) chain. -/
def find [DecidableEq K] (key : K) : KeyValue K V → Option V
  | .mk k v none => if k = key then some v else none
  | .mk k v (some kv) => if k = key then some v else kv.find key

/-- The chain walk of `update_or_link_new_val`: if some node's key matches,
replace that node's value (returning the old one); otherwise append a fresh
node at the tail and return `none`.  First component is the returned
`Option<V>`, second is the chain after mutation. -/
def updateOrLink [DecidableEq K] (key : K) (value : V) :
    KeyValue K V → Option V × KeyValue K V
  | .mk k v none =>
    if k = key then (some v, .mk k value none)
    else (none, .mk k v (some (.mk key value none)))
  | .mk k v (some kv) =>
    if k = key then (some v, .mk k value (some kv))
    else
      let r := kv.updateOrLink key value
      (r.1, .mk k v (some r.2))

/-- The chain walk of `remove` on one chain: if the current node matches, the
chain continues with its `next` (the head case `self.array[position].replace(*next)`
/ `take()`, and the inner case `kv.next.replace(next)` / `kv.next.take()` are
both this re-linking); otherwise keep the node and recurse.  First component
is the returned `Option<V>`, second the chain after mutation (`none` when the
only node was removed). -/
def removeFromChain [DecidableEq K] (key : K) :
    KeyValue K V → Option V × Option (KeyValue K V)
  | .mk k v none =>
    if k = key then (some v, none) else (none, some (.mk k v none))
  | .mk k v (some kv) =>
    if k = key then (some v, some kv)
    else
      let r := kv.removeFromChain key
      (r.1, some (.mk k v r.2))

/-- Abstraction of a chain as the list of its entries in link order. -/
def toList : KeyValue K V → List (K × V)
  | .mk k v none => [(k, v)]
  | .mk k v (some kv) => (k, v) :: kv.toList

end KeyValue

/-- Entries of a slot (`Option`-wrapped chain) in link order. -/
def chainList : Option (KeyValue K V) → List (K × V)
  | none => []
  | some kv => kv.toList

/-- `find` lifted to a slot: `none` on an empty slot.  `get` is this walk. -/
def findInSlot [DecidableEq K] (key : K) : Option (KeyValue K V) → Option V
  | none => none
  | some kv => kv.find key

/-- `struct HashMap<K, V> { curr_size: usize, array: [Option<KeyValue<K, V>>; DEFAULT_MAX_SIZE] }` -/
structure HashMap (K V : Type) : Type where
  curr_size : Nat
  array : Fin DEFAULT_MAX_SIZE → Option (KeyValue K V)

namespace HashMap

/-- `let position = (hash_key(&key) % DEFAULT_MAX_SIZE) as usize;` — the slot
index computed identically at the top of `insert`, `get` and `remove`. -/
def position (hash_key : K → Nat) (key : K) : Fin DEFAULT_MAX_SIZE :=
  ⟨hash_key key % DEFAULT_MAX_SIZE, Nat.mod_lt _ (by decide)⟩

/-- `HashMap::new`: all slots `INIT = None`, size 0. -/
def new : HashMap K V := ⟨0, fun _ => none⟩

/-- `fn insert_new_value(&mut self, key: K, value: V, position: usize)`:
put a fresh single-node chain in the slot, increment `curr_size`. -/
def insert_new_value (m : HashMap K V) (key : K) (value : V)
    (position : Fin DEFAULT_MAX_SIZE) : HashMap K V :=
  { curr_size := m.curr_size + 1
    array := Function.update m.array position (some (KeyValue.mk key value none)) }

/-- `fn update_or_link_new_val(&mut self, key: K, value: V, position: usize)`.
The source unwraps `self.array[position].as_mut().unwrap()`; the only caller
(`insert`) has checked `is_some()`, so here the unwrapped head is an explicit
argument.  The source increments `curr_size` exactly in the branch that
returns `None` (the append branch), i.e. when the walk result is `none`. -/
def update_or_link_new_val [DecidableEq K] (m : HashMap K V) (key : K) (value : V)
    (position : Fin DEFAULT_MAX_SIZE) (head : KeyValue K V) : Option V × HashMap K V :=
  let r := head.updateOrLink key value
  (r.1,
    { curr_size := if r.1.isSome then m.curr_size else m.curr_size + 1
      array := Function.update m.array position (some r.2) })

/-- `pub fn insert(&mut self, key: K, value: V) -> Option<V>`. -/
def insert [DecidableEq K] (hash_key : K → Nat) (m : HashMap K V) (key : K)
    (value : V) : Option V × HashMap K V :=
  let pos := position hash_key key
  match m.array pos with
  | some head => update_or_link_new_val m key value pos head
  | none => (none, insert_new_value m key value pos)

/-- `pub fn get(&self, key: &K) -> Option<&V>` (the reference is modelled by
returning the pointed-to value). -/
def get [DecidableEq K] (hash_key : K → Nat) (m : HashMap K V) (key : K) : Option V :=
  findInSlot key (m.array (position hash_key key))

/-- `pub fn remove(&mut self, key: &K) -> Option<V>`.  When the walk finds no
match (or the slot is empty) the source mutates nothing and returns `None`;
when it matches, it decrements `curr_size` and re-links, which at chain level
is exactly `removeFromChain`. -/
def remove [DecidableEq K] (hash_key : K → Nat) (m : HashMap K V) (key : K) :
    Option V × HashMap K V :=
  let pos := position hash_key key
  match m.array pos with
  | none => (none, m)
  | some head =>
    let r := head.removeFromChain key
    match r.1 with
    | some v =>
      (some v,
        { curr_size := m.curr_size - 1
          array := Function.update m.array pos r.2 })
    | none => (none, m)

/-- `pub fn clear(&mut self)`: `self.array = [Self::INIT; DEFAULT_MAX_SIZE]; self.curr_size = 0;` -/
def clear (m : HashMap K V) : HashMap K V := ⟨0, fun _ => none⟩

end HashMap

/-- Entries of slot `i` in link order. -/
def slotList (m : HashMap K V) (i : Fin DEFAULT_MAX_SIZE) : List (K × V) :=
  chainList (m.array i)

/-- Number of live entries across all chains. -/
def totalEntries (m : HashMap K V) : Nat :=
  ∑ i : Fin DEFAULT_MAX_SIZE, (slotList m i).length

/-- All entries of the table, slot by slot. -/
def allEntries (m : HashMap K V) : List (K × V) :=
  (List.finRange DEFAULT_MAX_SIZE).flatMap (fun i => slotList m i)

/-- The table invariant maintained by the code: chains hold pairwise distinct
keys, every key sits in the slot its hash selects, and `curr_size` counts the
live entries. -/
structure WF [DecidableEq K] (hash_key : K → Nat) (m : HashMap K V) : Prop where
  nodup : ∀ i, ((slotList m i).map Prod.fst).Nodup
  placed : ∀ i k, k ∈ (slotList m i).map Prod.fst → HashMap.position hash_key k = i
  size_eq : m.curr_size = totalEntries m

/-- Tables reachable from `HashMap::new()` by the public mutating API. -/
inductive Reachable [DecidableEq K] (hash_key : K → Nat) : HashMap K V → Prop where
  | new : Reachable hash_key HashMap.new
  | insert (m : HashMap K V) (k : K) (v : V) :
      Reachable hash_key m → Reachable hash_key (HashMap.insert hash_key m k v).2
  | remove (m : HashMap K V) (k : K) :
      Reachable hash_key m → Reachable hash_key (HashMap.remove hash_key m k).2
  | clear (m : HashMap K V) :
      Reachable hash_key m → Reachable hash_key (HashMap.clear m)

/-- A concrete hash function for test instances: the identity on `Nat`,
so that key `n` lands in slot `n % 256` (keys `0` and `256` collide). -/
def idHash : Nat → Nat := fun n => n

/-- A concrete table: `insert(0, 5)` on the empty table. -/
def exampleTable : HashMap Nat Nat :=
  (HashMap.insert idHash HashMap.new 0 5).2

/-! ### Chain-level lemmas -/

namespace KeyValue

variable [DecidableEq K]

@[simp]
theorem chainList_none : chainList (none : Option (KeyValue K V)) = [] := rfl

@[simp]
theorem chainList_some (kv : KeyValue K V) : chainList (some kv) = kv.toList := rfl

@[simp]
theorem findInSlot_none (key : K) :
    findInSlot key (none : Option (KeyValue K V)) = none := rfl

@[simp]
theorem findInSlot_some (key : K) (kv : KeyValue K V) :
    findInSlot key (some kv) = kv.find key := rfl

@[simp]
theorem toList_mk (k : K) (v : V) (o : Option (KeyValue K V)) :
    (KeyValue.mk k v o).toList = (k, v) :: chainList o := by
  cases o <;> rfl

@[simp]
theorem find_mk (key k : K) (v : V) (o : Option (KeyValue K V)) :
    (KeyValue.mk k v o).find key = if k = key then some v else findInSlot key o := by
  cases o <;> rfl

theorem toList_ne_nil : ∀ kv : KeyValue K V, kv.toList ≠ []
  | .mk k v o => by rw [toList_mk]; simp

theorem find_eq_toList (key : K) : ∀ kv : KeyValue K V,
    kv.find key = (kv.toList.find? (fun p => p.1 = key)).map Prod.snd
  | .mk k v none => by
    by_cases h : k = key <;> simp [List.find?, h]
  | .mk k v (some kv) => by
    by_cases h : k = key
    · simp [List.find?, h]
    · simpa [List.find?, h] using find_eq_toList key kv

theorem find_eq_none_iff (key : K) : ∀ kv : KeyValue K V,
    kv.find key = none ↔ key ∉ kv.toList.map Prod.fst
  | .mk k v none => by
    by_cases h : k = key <;> simp [h] <;> tauto
  | .mk k v (some kv) => by
    by_cases h : k = key
    · simp [h]
    · rw [find_mk, if_neg h, toList_mk]
      simp only [List.map_cons, List.mem_cons, chainList_some, findInSlot_some]
      rw [find_eq_none_iff key kv]
      constructor
      · rintro hnot (hk | hk)
        · exact h hk.symm
        · exact hnot hk
      · tauto

theorem updateOrLink_fst (key : K) (value : V) : ∀ kv : KeyValue K V,
    (kv.updateOrLink key value).1 = kv.find key
  | .mk k v none => by
    by_cases h : k = key <;> simp [updateOrLink, h]
  | .mk k v (some kv) => by
    by_cases h : k = key
    · simp [updateOrLink, h]
    · simpa [updateOrLink, h] using updateOrLink_fst key value kv

theorem find_updateOrLink_self (key : K) (value : V) :
    ∀ kv : KeyValue K V, ((kv.updateOrLink key value).2).find key = some value
  | .mk k v none => by
    by_cases h : k = key <;> simp [updateOrLink, h]
  | .mk k v (some kv) => by
    by_cases h : k = key
    · simp [updateOrLink, h]
    · simpa [updateOrLink, h] using find_updateOrLink_self key value kv

theorem find_updateOrLink_other (key k' : K) (value : V) (hne : k' ≠ key) :
    ∀ kv : KeyValue K V, ((kv.updateOrLink key value).2).find k' = kv.find k'
  | .mk k v none => by
    have hk : key ≠ k' := fun hc => hne (Eq.symm hc)
    by_cases h : k = key
    · subst h; simp [updateOrLink, hk]
    · simp [updateOrLink, h, hk]
  | .mk k v (some kv) => by
    have hk : key ≠ k' := fun hc => hne (Eq.symm hc)
    by_cases h : k = key
    · subst h; simp [updateOrLink, hk]
    · simp [updateOrLink, h, find_updateOrLink_other key k' value hne kv]

theorem keys_updateOrLink_of_isSome (key : K) (value : V) :
    ∀ kv : KeyValue K V, (kv.find key).isSome →
      ((kv.updateOrLink key value).2).toList.map Prod.fst = kv.toList.map Prod.fst
  | .mk k v none => by
    by_cases h : k = key <;> simp [updateOrLink, h]
  | .mk k v (some kv) => by
    by_cases h : k = key
    · simp [updateOrLink, h]
    · intro hs
      rw [find_mk, if_neg h, findInSlot_some] at hs
      have := keys_updateOrLink_of_isSome key value kv hs
      simp [updateOrLink, h, this]

theorem toList_updateOrLink_of_none (key : K) (value : V) :
    ∀ kv : KeyValue K V, kv.find key = none →
      ((kv.updateOrLink key value).2).toList = kv.toList ++ [(key, value)]
  | .mk k v none => by
    by_cases h : k = key <;> simp [updateOrLink, h]
  | .mk k v (some kv) => by
    by_cases h : k = key
    · simp [updateOrLink, h]
    · intro hn
      rw [find_mk, if_neg h, findInSlot_some] at hn
      have := toList_updateOrLink_of_none key value kv hn
      simp [updateOrLink, h, this]

theorem removeFromChain_fst (key : K) : ∀ kv : KeyValue K V,
    (kv.removeFromChain key).1 = kv.find key
  | .mk k v none => by
    by_cases h : k = key <;> simp [removeFromChain, h]
  | .mk k v (some kv) => by
    by_cases h : k = key
    · simp [removeFromChain, h]
    · simpa [removeFromChain, h] using removeFromChain_fst key kv

theorem chainList_removeFromChain (key : K) : ∀ kv : KeyValue K V,
    chainList ((kv.removeFromChain key).2) =
      kv.toList.eraseP (fun p => p.1 = key)
  | .mk k v none => by
    by_cases h : k = key <;> simp [removeFromChain, List.eraseP_cons, h]
  | .mk k v (some kv) => by
    by_cases h : k = key
    · simp [removeFromChain, List.eraseP_cons, h]
    · have := chainList_removeFromChain key kv
      simp [removeFromChain, List.eraseP_cons, h, this]

theorem findInSlot_removeFromChain_other (key k' : K) (hne : k' ≠ key) :
    ∀ kv : KeyValue K V, findInSlot k' ((kv.removeFromChain key).2) = kv.find k'
  | .mk k v none => by
    have hk : key ≠ k' := fun hc => hne (Eq.symm hc)
    by_cases h : k = key
    · subst h; simp [removeFromChain, hk]
    · simp [removeFromChain, h]
  | .mk k v (some kv) => by
    have hk : key ≠ k' := fun hc => hne (Eq.symm hc)
    by_cases h : k = key
    · subst h; simp [removeFromChain, hk]
    · have := findInSlot_removeFromChain_other key k' hne kv
      simp [removeFromChain, h, this]

theorem findInSlot_removeFromChain_self (key : K) :
    ∀ kv : KeyValue K V, (kv.toList.map Prod.fst).Nodup →
      findInSlot key ((kv.removeFromChain key).2) = none
  | .mk k v none => by
    by_cases h : k = key <;> simp [removeFromChain, h]
  | .mk k v (some kv) => by
    intro hnd
    rw [toList_mk] at hnd
    simp only [List.map_cons, List.nodup_cons, chainList_some] at hnd
    by_cases h : k = key
    · rw [removeFromChain, if_pos h]
      subst h
      rw [findInSlot_some, find_eq_none_iff]
      exact hnd.1
    · have := findInSlot_removeFromChain_self key kv hnd.2
      simp [removeFromChain, h, this]

end KeyValue

/-! ### Table-level lemmas -/

open KeyValue

@[simp]
theorem slotList_mk (n : Nat) (arr : Fin DEFAULT_MAX_SIZE → Option (KeyValue K V))
    (i : Fin DEFAULT_MAX_SIZE) :
    slotList (HashMap.mk n arr) i = chainList (arr i) := rfl

theorem totalEntries_update (m : HashMap K V) (p : Fin DEFAULT_MAX_SIZE)
    (c : Option (KeyValue K V)) (n : Nat) :
    totalEntries ⟨n, Function.update m.array p c⟩ + (slotList m p).length
      = totalEntries m + (chainList c).length := by
  unfold totalEntries
  simp only [slotList_mk, slotList]
  rw [Finset.sum_eq_sum_diff_singleton_add (Finset.mem_univ p)
        (fun i => (chainList (Function.update m.array p c i)).length),
      Finset.sum_eq_sum_diff_singleton_add (Finset.mem_univ p)
        (fun i => (chainList (m.array i)).length)]
  have hcong : ∀ i ∈ Finset.univ \ ({p} : Finset (Fin DEFAULT_MAX_SIZE)),
      (chainList (Function.update m.array p c i)).length
        = (chainList (m.array i)).length := by
    intro i hi
    rcases Finset.mem_sdiff.mp hi with ⟨-, hip⟩
    rw [Function.update_noteq (by simpa using hip)]
  rw [Finset.sum_congr rfl hcong, Function.update_same]
  omega

theorem slot_le_totalEntries (m : HashMap K V) (p : Fin DEFAULT_MAX_SIZE) :
    (slotList m p).length ≤ totalEntries m :=
  Finset.single_le_sum (f := fun i => (slotList m i).length)
    (fun i _ => Nat.zero_le _) (Finset.mem_univ p)

section Table

variable [DecidableEq K] (hash_key : K → Nat)

theorem wf_new : WF (K := K) (V := V) hash_key HashMap.new := by
  refine ⟨?_, ?_, ?_⟩
  · intro i; simp [HashMap.new, slotList]
  · intro i k hk; simp [HashMap.new, slotList] at hk
  · simp [HashMap.new, totalEntries, slotList]

theorem wf_clear (m : HashMap K V) : WF hash_key (HashMap.clear m) := by
  refine ⟨?_, ?_, ?_⟩
  · intro i; simp [HashMap.clear, slotList]
  · intro i k hk; simp [HashMap.clear, slotList] at hk
  · simp [HashMap.clear, totalEntries, slotList]

theorem wf_insert (m : HashMap K V) (key : K) (value : V) (hwf : WF hash_key m) :
    WF hash_key (HashMap.insert hash_key m key value).2 := by
  cases hp : m.array (HashMap.position hash_key key) with
  | none =>
    simp only [HashMap.insert, hp, HashMap.insert_new_value]
    refine ⟨?_, ?_, ?_⟩
    · intro i
      by_cases hip : i = HashMap.position hash_key key
      · subst hip; simp [Function.update_same]
      · simpa [Function.update_noteq hip] using hwf.nodup i
    · intro i k hk
      by_cases hip : i = HashMap.position hash_key key
      · subst hip
        simp only [slotList_mk, Function.update_same, chainList_some, toList_mk,
          chainList_none, List.map_cons, List.map_nil, List.mem_singleton] at hk
        rw [hk]
      · rw [slotList_mk, Function.update_noteq hip] at hk
        exact hwf.placed i k hk
    · have h := totalEntries_update m (HashMap.position hash_key key)
        (some (KeyValue.mk key value none)) (m.curr_size + 1)
      rw [slotList, hp] at h
      simp only [chainList_some, toList_mk] at h
      simp only [chainList_none, List.length_cons, List.length_nil] at h
      have hs := hwf.size_eq
      simp only [HashMap.curr_size]
      omega
  | some head =>
    simp only [HashMap.insert, hp, HashMap.update_or_link_new_val]
    have hfst := updateOrLink_fst key value head
    cases hfind : head.find key with
    | some v0 =>
      have hkeys := keys_updateOrLink_of_isSome key value head (by rw [hfind]; rfl)
      refine ⟨?_, ?_, ?_⟩
      · intro i
        by_cases hip : i = HashMap.position hash_key key
        · subst hip
          have hnd := hwf.nodup (HashMap.position hash_key key)
          rw [slotList, hp] at hnd
          simpa [Function.update_same, hkeys] using hnd
        · simpa [Function.update_noteq hip] using hwf.nodup i
      · intro i k hk
        by_cases hip : i = HashMap.position hash_key key
        · subst hip
          rw [slotList_mk, Function.update_same, chainList_some, hkeys] at hk
          have hpl := hwf.placed (HashMap.position hash_key key) k
          rw [slotList, hp] at hpl
          exact hpl hk
        · rw [slotList_mk, Function.update_noteq hip] at hk
          exact hwf.placed i k hk
      · have h := totalEntries_update m (HashMap.position hash_key key)
          (some (head.updateOrLink key value).2)
          (if (head.updateOrLink key value).1.isSome then m.curr_size else m.curr_size + 1)
        rw [slotList, hp] at h
        simp only [chainList_some] at h
        have hlen : ((head.updateOrLink key value).2).toList.length = head.toList.length := by
          have hc := congrArg List.length hkeys
          simpa using hc
        rw [hlen] at h
        have hs := hwf.size_eq
        have hcond : (if (head.updateOrLink key value).1.isSome then m.curr_size
            else m.curr_size + 1) = m.curr_size := by
          rw [hfst, hfind]; rfl
        simp only [HashMap.curr_size]
        omega
    | none =>
      have happ := toList_updateOrLink_of_none key value head hfind
      have hnotin : key ∉ head.toList.map Prod.fst := (find_eq_none_iff key head).mp hfind
      refine ⟨?_, ?_, ?_⟩
      · intro i
        by_cases hip : i = HashMap.position hash_key key
        · subst hip
          have hnd := hwf.nodup (HashMap.position hash_key key)
          rw [slotList, hp] at hnd
          simp only [chainList_some] at hnd
          simp only [slotList_mk, Function.update_same, chainList_some, happ,
            List.map_append, List.map_cons, List.map_nil]
          rw [List.nodup_append]
          refine ⟨hnd, List.nodup_singleton key, ?_⟩
          intro a ha hb
          rw [List.mem_singleton] at hb
          exact hnotin (hb ▸ ha)
        · simpa [Function.update_noteq hip] using hwf.nodup i
      · intro i k hk
        by_cases hip : i = HashMap.position hash_key key
        · subst hip
          rw [slotList_mk, Function.update_same, chainList_some, happ] at hk
          simp only [List.map_append, List.map_cons, List.map_nil, List.mem_append,
            List.mem_singleton] at hk
          cases hk with
          | inl hk =>
            have hpl := hwf.placed (HashMap.position hash_key key) k
            rw [slotList, hp] at hpl
            exact hpl hk
          | inr hk => rw [hk]
        · rw [slotList_mk, Function.update_noteq hip] at hk
          exact hwf.placed i k hk
      · have h := totalEntries_update m (HashMap.position hash_key key)
          (some (head.updateOrLink key value).2)
          (if (head.updateOrLink key value).1.isSome then m.curr_size else m.curr_size + 1)
        rw [slotList, hp] at h
        simp only [chainList_some] at h
        have hlen : ((head.updateOrLink key value).2).toList.length
            = head.toList.length + 1 := by
          rw [happ]; simp
        rw [hlen] at h
        have hs := hwf.size_eq
        have hcond : (if (head.updateOrLink key value).1.isSome then m.curr_size
            else m.curr_size + 1) = m.curr_size + 1 := by
          rw [hfst, hfind]; rfl
        simp only [HashMap.curr_size]
        omega

theorem wf_remove (m : HashMap K V) (key : K) (hwf : WF hash_key m) :
    WF hash_key (HashMap.remove hash_key m key).2 := by
  cases hp : m.array (HashMap.position hash_key key) with
  | none => simpa only [HashMap.remove, hp] using hwf
  | some head =>
    have hfst := removeFromChain_fst key head
    cases hfind : head.find key with
    | none =>
      simpa only [HashMap.remove, hp, hfst, hfind] using hwf
    | some v =>
      have herase := chainList_removeFromChain key head
      have hsub : List.Sublist (chainList ((head.removeFromChain key).2)) head.toList := by
        rw [herase]; exact List.eraseP_sublist _
      simp only [HashMap.remove, hp, hfst, hfind]
      refine ⟨?_, ?_, ?_⟩
      · intro i
        by_cases hip : i = HashMap.position hash_key key
        · subst hip
          have hnd := hwf.nodup (HashMap.position hash_key key)
          rw [slotList, hp] at hnd
          simp only [chainList_some] at hnd
          rw [slotList_mk, Function.update_same]
          exact (hsub.map Prod.fst).nodup hnd
        · simpa [Function.update_noteq hip] using hwf.nodup i
      · intro i k hk
        by_cases hip : i = HashMap.position hash_key key
        · subst hip
          rw [slotList_mk, Function.update_same] at hk
          have hk2 : k ∈ head.toList.map Prod.fst :=
            (hsub.map Prod.fst).subset hk
          have hpl := hwf.placed (HashMap.position hash_key key) k
          rw [slotList, hp] at hpl
          simp only [chainList_some] at hpl
          exact hpl hk2
        · rw [slotList_mk, Function.update_noteq hip] at hk
          exact hwf.placed i k hk
      · have h := totalEntries_update m (HashMap.position hash_key key)
          ((head.removeFromChain key).2) (m.curr_size - 1)
        rw [slotList, hp] at h
        simp only [chainList_some] at h
        have hfind2 := find_eq_toList key head
        rw [hfind] at hfind2
        obtain ⟨a, ha, -⟩ := Option.map_eq_some'.mp hfind2.symm
        have hmem := List.mem_of_find?_eq_some ha
        have hpa := List.find?_some ha
        have hlen : (chainList ((head.removeFromChain key).2)).length + 1
            = head.toList.length := by
          rw [herase]
          exact List.length_eraseP_add_one hmem hpa
        have hle := slot_le_totalEntries m (HashMap.position hash_key key)
        rw [slotList, hp] at hle
        simp only [chainList_some] at hle
        have hpos : 0 < head.toList.length :=
          List.length_pos.mpr (toList_ne_nil head)
        have hs := hwf.size_eq
        simp only [HashMap.curr_size]
        omega

theorem reachable_wf (m : HashMap K V) (h : Reachable hash_key m) :
    WF hash_key m := by
  induction h with
  | new => exact wf_new hash_key
  | insert m k v _ ih => exact wf_insert hash_key m k v ih
  | remove m k _ ih => exact wf_remove hash_key m k ih
  | clear m _ _ => exact wf_clear hash_key m

theorem get_insert_self (m : HashMap K V) (k : K) (v : V) :
    HashMap.get hash_key (HashMap.insert hash_key m k v).2 k = some v := by
  cases hp : m.array (HashMap.position hash_key k) with
  | none =>
    simp [HashMap.insert, hp, HashMap.insert_new_value, HashMap.get,
      Function.update_same]
  | some head =>
    simp [HashMap.insert, hp, HashMap.update_or_link_new_val, HashMap.get,
      Function.update_same, find_updateOrLink_self]

theorem insert_fst (m : HashMap K V) (k : K) (v : V) :
    (HashMap.insert hash_key m k v).1 = HashMap.get hash_key m k := by
  cases hp : m.array (HashMap.position hash_key k) with
  | none => simp [HashMap.insert, hp, HashMap.get]
  | some head =>
    simp [HashMap.insert, hp, HashMap.update_or_link_new_val, HashMap.get,
      updateOrLink_fst]

theorem get_insert_other (m : HashMap K V) (k k' : K) (v : V) (hne : k' ≠ k) :
    HashMap.get hash_key (HashMap.insert hash_key m k v).2 k'
      = HashMap.get hash_key m k' := by
  cases hp : m.array (HashMap.position hash_key k) with
  | none =>
    by_cases hpp : HashMap.position hash_key k' = HashMap.position hash_key k
    · simp only [HashMap.insert, hp, HashMap.insert_new_value, HashMap.get, hpp,
        Function.update_same]
      simp [Ne.symm hne]
    · simp only [HashMap.insert, hp, HashMap.insert_new_value, HashMap.get,
        Function.update_noteq hpp]
  | some head =>
    by_cases hpp : HashMap.position hash_key k' = HashMap.position hash_key k
    · simp only [HashMap.insert, hp, HashMap.update_or_link_new_val, HashMap.get, hpp,
        Function.update_same]
      simp [find_updateOrLink_other k k' v hne]
    · simp only [HashMap.insert, hp, HashMap.update_or_link_new_val, HashMap.get,
        Function.update_noteq hpp]

theorem insert_size_of_get_none (m : HashMap K V) (k : K) (v : V)
    (hget : HashMap.get hash_key m k = none) :
    (HashMap.insert hash_key m k v).2.curr_size = m.curr_size + 1 := by
  cases hp : m.array (HashMap.position hash_key k) with
  | none => simp [HashMap.insert, hp, HashMap.insert_new_value]
  | some head =>
    rw [HashMap.get, hp, findInSlot_some] at hget
    simp [HashMap.insert, hp, HashMap.update_or_link_new_val, updateOrLink_fst, hget]

theorem insert_size_of_get_isSome (m : HashMap K V) (k : K) (v : V)
    (hget : (HashMap.get hash_key m k).isSome) :
    (HashMap.insert hash_key m k v).2.curr_size = m.curr_size := by
  cases hp : m.array (HashMap.position hash_key k) with
  | none => rw [HashMap.get, hp, findInSlot_none] at hget; exact absurd hget (by simp)
  | some head =>
    rw [HashMap.get, hp, findInSlot_some] at hget
    simp [HashMap.insert, hp, HashMap.update_or_link_new_val, updateOrLink_fst, hget]

theorem remove_of_get_none (m : HashMap K V) (k : K)
    (hget : HashMap.get hash_key m k = none) :
    HashMap.remove hash_key m k = (none, m) := by
  cases hp : m.array (HashMap.position hash_key k) with
  | none => simp [HashMap.remove, hp]
  | some head =>
    rw [HashMap.get, hp, findInSlot_some] at hget
    simp [HashMap.remove, hp, removeFromChain_fst, hget]

theorem remove_fst (m : HashMap K V) (k : K) :
    (HashMap.remove hash_key m k).1 = HashMap.get hash_key m k := by
  cases hp : m.array (HashMap.position hash_key k) with
  | none => simp [HashMap.remove, hp, HashMap.get]
  | some head =>
    cases hfind : head.find k with
    | none => simp [HashMap.remove, hp, removeFromChain_fst, hfind, HashMap.get]
    | some v => simp [HashMap.remove, hp, removeFromChain_fst, hfind, HashMap.get]

theorem get_remove_self (m : HashMap K V) (k : K) (hwf : WF hash_key m) :
    HashMap.get hash_key (HashMap.remove hash_key m k).2 k = none := by
  cases hp : m.array (HashMap.position hash_key k) with
  | none => simp [HashMap.remove, hp, HashMap.get]
  | some head =>
    cases hfind : head.find k with
    | none => simp [HashMap.remove, hp, removeFromChain_fst, hfind, HashMap.get, hp]
    | some v =>
      have hnd := hwf.nodup (HashMap.position hash_key k)
      rw [slotList, hp, chainList_some] at hnd
      simp only [HashMap.remove, hp, removeFromChain_fst, hfind, HashMap.get,
        Function.update_same]
      exact findInSlot_removeFromChain_self k head hnd

theorem get_remove_other (m : HashMap K V) (k k' : K) (hne : k' ≠ k) :
    HashMap.get hash_key (HashMap.remove hash_key m k).2 k'
      = HashMap.get hash_key m k' := by
  cases hp : m.array (HashMap.position hash_key k) with
  | none => simp [HashMap.remove, hp]
  | some head =>
    cases hfind : head.find k with
    | none => simp [HashMap.remove, hp, removeFromChain_fst, hfind]
    | some v =>
      by_cases hpp : HashMap.position hash_key k' = HashMap.position hash_key k
      · simp only [HashMap.remove, hp, removeFromChain_fst, hfind, HashMap.get, hpp,
          Function.update_same]
        simp [findInSlot_removeFromChain_other k k' hne]
      · simp only [HashMap.remove, hp, removeFromChain_fst, hfind, HashMap.get,
          Function.update_noteq hpp]

theorem one_le_curr_size_of_get_isSome (m : HashMap K V) (k : K)
    (hwf : WF hash_key m) (hget : (HashMap.get hash_key m k).isSome) :
    1 ≤ m.curr_size := by
  cases hp : m.array (HashMap.position hash_key k) with
  | none => rw [HashMap.get, hp, findInSlot_none] at hget; exact absurd hget (by simp)
  | some head =>
    have hle := slot_le_totalEntries m (HashMap.position hash_key k)
    rw [slotList, hp, chainList_some] at hle
    have hpos : 0 < head.toList.length := List.length_pos.mpr (toList_ne_nil head)
    have hs := hwf.size_eq
    omega

theorem remove_size_of_get_isSome (m : HashMap K V) (k : K)
    (hget : (HashMap.get hash_key m k).isSome) :
    (HashMap.remove hash_key m k).2.curr_size = m.curr_size - 1 := by
  cases hp : m.array (HashMap.position hash_key k) with
  | none => rw [HashMap.get, hp, findInSlot_none] at hget; exact absurd hget (by simp)
  | some head =>
    rw [HashMap.get, hp, findInSlot_some] at hget
    obtain ⟨v, hv⟩ := Option.isSome_iff_exists.mp hget
    simp [HashMap.remove, hp, removeFromChain_fst, hv]

theorem wf_allEntries_nodup (m : HashMap K V) (hwf : WF hash_key m) :
    ((allEntries m).map Prod.fst).Nodup := by
  unfold allEntries
  rw [List.map_flatMap, List.nodup_flatMap]
  refine ⟨fun i _ => hwf.nodup i, ?_⟩
  have hnd : (List.finRange DEFAULT_MAX_SIZE).Pairwise (· ≠ ·) :=
    List.nodup_finRange DEFAULT_MAX_SIZE
  refine hnd.imp ?_
  intro i j hij
  intro k hki hkj
  exact hij ((hwf.placed i k hki).symm.trans (hwf.placed j k hkj))

/-! ### The claims -/

/-- Claim C1: for every key `k` and value `v`, after `insert(k, v)` on any
table, `get(&k)` returns `Some(v)` (the value just inserted). -/
theorem claim_C1_insert_get_roundtrip (m : HashMap K V) (k : K) (v : V) :
    HashMap.get hash_key (HashMap.insert hash_key m k v).2 k = some v :=
  get_insert_self hash_key m k v

/-- Claim C2: on a table reachable from `new()` (the only way to obtain a
table, since the fields are private) that contains key `k` with value `v`,
`remove(&k)` returns `Some(v)`, afterwards `get(&k)` returns `None`, the size
decreases by exactly 1, and every other key is still retrievable with its
value unchanged. -/
theorem claim_C2_remove_present (m : HashMap K V) (k : K) (v : V)
    (hR : Reachable hash_key m) (hget : HashMap.get hash_key m k = some v) :
    (HashMap.remove hash_key m k).1 = some v
  ∧ HashMap.get hash_key (HashMap.remove hash_key m k).2 k = none
  ∧ (HashMap.remove hash_key m k).2.curr_size + 1 = m.curr_size
  ∧ (∀ k', k' ≠ k → HashMap.get hash_key (HashMap.remove hash_key m k).2 k'
      = HashMap.get hash_key m k') := by
  have hwf := reachable_wf hash_key m hR
  have hs : (HashMap.get hash_key m k).isSome := by rw [hget]; rfl
  refine ⟨?_, get_remove_self hash_key m k hwf, ?_, ?_⟩
  · rw [remove_fst, hget]
  · have h1 := remove_size_of_get_isSome hash_key m k hs
    have h2 := one_le_curr_size_of_get_isSome hash_key m k hwf hs
    omega
  · intro k' hne
    exact get_remove_other hash_key m k k' hne

theorem claim_C2_witness :
    HashMap.get idHash exampleTable 0 = some 5
  ∧ (HashMap.remove idHash exampleTable 0).1 = some 5
  ∧ HashMap.get idHash (HashMap.remove idHash exampleTable 0).2 0 = none
  ∧ (HashMap.remove idHash exampleTable 0).2.curr_size + 1 = exampleTable.curr_size
  ∧ HashMap.get idHash (HashMap.remove idHash exampleTable 0).2 7
      = HashMap.get idHash exampleTable 7 := by
  have hR : Reachable idHash exampleTable :=
    Reachable.insert HashMap.new 0 5 Reachable.new
  have hget : HashMap.get idHash exampleTable 0 = some 5 := by decide
  have h := claim_C2_remove_present idHash exampleTable 0 5 hR hget
  exact ⟨hget, h.1, h.2.1, h.2.2.1, h.2.2.2 7 (by decide)⟩

/-- Claim C3: `insert(k, v1)` then `insert(k, v2)` makes the second insert
return `Some(v1)` as the previous value, a subsequent `get(&k)` returns
`Some(v2)`, and size is unchanged by the second insert. -/
theorem claim_C3_update_semantics (m : HashMap K V) (k : K) (v1 v2 : V) :
    (HashMap.insert hash_key (HashMap.insert hash_key m k v1).2 k v2).1 = some v1
  ∧ HashMap.get hash_key
      (HashMap.insert hash_key (HashMap.insert hash_key m k v1).2 k v2).2 k = some v2
  ∧ (HashMap.insert hash_key (HashMap.insert hash_key m k v1).2 k v2).2.curr_size
      = (HashMap.insert hash_key m k v1).2.curr_size := by
  have h1 : HashMap.get hash_key (HashMap.insert hash_key m k v1).2 k = some v1 :=
    get_insert_self hash_key m k v1
  refine ⟨?_, get_insert_self hash_key _ k v2, ?_⟩
  · rw [insert_fst, h1]
  · exact insert_size_of_get_isSome hash_key _ k v2 (by rw [h1]; rfl)

/-- Claim C4: for distinct keys `k1 ≠ k2` whose hashes reduce to the same slot
index modulo the capacity, inserting both makes each independently retrievable,
and removing either returns its own value and leaves the other retrievable
unchanged (matching is by key equality, never by hash alone). -/
theorem claim_C4_collision_handling (m : HashMap K V) (k1 k2 : K) (v1 v2 : V)
    (hne : k1 ≠ k2)
    (hcol : hash_key k1 % DEFAULT_MAX_SIZE = hash_key k2 % DEFAULT_MAX_SIZE) :
    HashMap.get hash_key
      (HashMap.insert hash_key (HashMap.insert hash_key m k1 v1).2 k2 v2).2 k1 = some v1
  ∧ HashMap.get hash_key
      (HashMap.insert hash_key (HashMap.insert hash_key m k1 v1).2 k2 v2).2 k2 = some v2
  ∧ (HashMap.remove hash_key
      (HashMap.insert hash_key (HashMap.insert hash_key m k1 v1).2 k2 v2).2 k1).1 = some v1
  ∧ HashMap.get hash_key
      (HashMap.remove hash_key
        (HashMap.insert hash_key (HashMap.insert hash_key m k1 v1).2 k2 v2).2 k1).2 k2
      = some v2
  ∧ (HashMap.remove hash_key
      (HashMap.insert hash_key (HashMap.insert hash_key m k1 v1).2 k2 v2).2 k2).1 = some v2
  ∧ HashMap.get hash_key
      (HashMap.remove hash_key
        (HashMap.insert hash_key (HashMap.insert hash_key m k1 v1).2 k2 v2).2 k2).2 k1
      = some v1 := by
  have hg1 : HashMap.get hash_key
      (HashMap.insert hash_key (HashMap.insert hash_key m k1 v1).2 k2 v2).2 k1 = some v1 := by
    rw [get_insert_other hash_key _ k2 k1 v2 hne]
    exact get_insert_self hash_key m k1 v1
  have hg2 : HashMap.get hash_key
      (HashMap.insert hash_key (HashMap.insert hash_key m k1 v1).2 k2 v2).2 k2 = some v2 :=
    get_insert_self hash_key _ k2 v2
  refine ⟨hg1, hg2, ?_, ?_, ?_, ?_⟩
  · rw [remove_fst, hg1]
  · rw [get_remove_other hash_key _ k1 k2 (fun hc => hne hc.symm)]
    exact hg2
  · rw [remove_fst, hg2]
  · rw [get_remove_other hash_key _ k2 k1 hne]
    exact hg1

theorem claim_C4_witness :
    ((0 : Nat) ≠ 256 ∧ idHash 0 % DEFAULT_MAX_SIZE = idHash 256 % DEFAULT_MAX_SIZE)
  ∧ HashMap.get idHash
      (HashMap.insert idHash (HashMap.insert idHash HashMap.new 0 1).2 256 2).2 0 = some 1
  ∧ HashMap.get idHash
      (HashMap.insert idHash (HashMap.insert idHash HashMap.new 0 1).2 256 2).2 256 = some 2
  ∧ (HashMap.remove idHash
      (HashMap.insert idHash (HashMap.insert idHash HashMap.new 0 1).2 256 2).2 0).1 = some 1
  ∧ HashMap.get idHash
      (HashMap.remove idHash
        (HashMap.insert idHash (HashMap.insert idHash HashMap.new 0 1).2 256 2).2 0).2 256
      = some 2 := by
  have h := claim_C4_collision_handling idHash HashMap.new 0 256 1 2
    (by decide) (by decide)
  exact ⟨⟨by decide, by decide⟩, h.1, h.2.1, h.2.2.1, h.2.2.2.1⟩

/-- Claim C5: on every table reachable from `new()`, `curr_size` equals the
exact number of live entries across all chains; insert of a fresh key adds 1,
insert on an existing key leaves it unchanged, remove of a present key
subtracts 1, remove of an absent key leaves it unchanged, and clear resets it
to 0. -/
theorem claim_C5_size_invariant (m : HashMap K V) (hR : Reachable hash_key m) :
    m.curr_size = totalEntries m
  ∧ (∀ k v, HashMap.get hash_key m k = none →
      (HashMap.insert hash_key m k v).2.curr_size = m.curr_size + 1)
  ∧ (∀ k v, (HashMap.get hash_key m k).isSome →
      (HashMap.insert hash_key m k v).2.curr_size = m.curr_size)
  ∧ (∀ k, (HashMap.get hash_key m k).isSome →
      (HashMap.remove hash_key m k).2.curr_size + 1 = m.curr_size)
  ∧ (∀ k, HashMap.get hash_key m k = none →
      (HashMap.remove hash_key m k).2.curr_size = m.curr_size)
  ∧ (HashMap.clear m).curr_size = 0 := by
  have hwf := reachable_wf hash_key m hR
  refine ⟨hwf.size_eq, insert_size_of_get_none hash_key m,
    insert_size_of_get_isSome hash_key m, ?_, ?_, rfl⟩
  · intro k hk
    have h1 := remove_size_of_get_isSome hash_key m k hk
    have h2 := one_le_curr_size_of_get_isSome hash_key m k hwf hk
    omega
  · intro k hk
    rw [remove_of_get_none hash_key m k hk]

theorem claim_C5_witness :
    exampleTable.curr_size = totalEntries exampleTable
  ∧ (HashMap.insert idHash exampleTable 1 7).2.curr_size = exampleTable.curr_size + 1
  ∧ (HashMap.insert idHash exampleTable 0 9).2.curr_size = exampleTable.curr_size
  ∧ (HashMap.remove idHash exampleTable 0).2.curr_size + 1 = exampleTable.curr_size
  ∧ (HashMap.remove idHash exampleTable 3).2.curr_size = exampleTable.curr_size
  ∧ (HashMap.clear exampleTable).curr_size = 0 := by
  have hR : Reachable idHash exampleTable :=
    Reachable.insert HashMap.new 0 5 Reachable.new
  have h := claim_C5_size_invariant idHash exampleTable hR
  exact ⟨h.1, h.2.1 1 7 (by decide), h.2.2.1 0 9 (by decide),
    h.2.2.2.1 0 (by decide), h.2.2.2.2.1 3 (by decide), h.2.2.2.2.2⟩

/-- Claim C6: in every table reachable from `new()`, any key appears in at
most one entry across all chains of the whole table.  (The claim's proviso —
the hash being a deterministic function of key content consistent with key
equality — holds by construction here: `hash_key` is a pure function and key
comparison is propositional equality.) -/
theorem claim_C6_no_duplicate_keys (m : HashMap K V) (hR : Reachable hash_key m) :
    ((allEntries m).map Prod.fst).Nodup :=
  wf_allEntries_nodup hash_key m (reachable_wf hash_key m hR)

theorem claim_C6_witness : ((allEntries exampleTable).map Prod.fst).Nodup :=
  claim_C6_no_duplicate_keys idHash exampleTable
    (Reachable.insert HashMap.new 0 5 Reachable.new)

/-- Claim C7: for every key `k` absent from the table, `remove(&k)` returns
`None` and leaves the table completely unchanged: same size and the same
chain in every slot. -/
theorem claim_C7_remove_absent (m : HashMap K V) (k : K)
    (hget : HashMap.get hash_key m k = none) :
    HashMap.remove hash_key m k = (none, m)
  ∧ (HashMap.remove hash_key m k).2.curr_size = m.curr_size
  ∧ (∀ i, (HashMap.remove hash_key m k).2.array i = m.array i) := by
  have h := remove_of_get_none hash_key m k hget
  exact ⟨h, by rw [h], fun i => by rw [h]⟩

theorem claim_C7_witness :
    HashMap.get idHash (HashMap.new : HashMap Nat Nat) 3 = none
  ∧ HashMap.remove idHash (HashMap.new : HashMap Nat Nat) 3
      = (none, (HashMap.new : HashMap Nat Nat))
  ∧ (HashMap.remove idHash (HashMap.new : HashMap Nat Nat) 3).2.curr_size
      = (HashMap.new : HashMap Nat Nat).curr_size := by
  have hget : HashMap.get idHash (HashMap.new : HashMap Nat Nat) 3 = none := by decide
  have h := claim_C7_remove_absent idHash (HashMap.new : HashMap Nat Nat) 3 hget
  exact ⟨hget, h.1, h.2.1⟩

/-- Claim C8: after `clear()` on any table, `get(&k)` returns `None` for every
key, every slot is empty, and size is 0. -/
theorem claim_C8_clear (m : HashMap K V) :
    (∀ k, HashMap.get hash_key (HashMap.clear m) k = none)
  ∧ (∀ i, (HashMap.clear m).array i = none)
  ∧ (HashMap.clear m).curr_size = 0 :=
  ⟨fun _ => rfl, fun _ => rfl, rfl⟩

/-- Claim C9: the totality/panic-freedom facts of the operations.  The slot
index is `hash(key) mod 256` and is always within bounds; in this embedding
the two internal unwraps are discharged structurally (`update_or_link_new_val`
receives the unwrapped head only under `insert`'s occupancy check, and the
advance unwrap in `remove`'s walk is the recursion on an already-matched
`Some`); the unsigned decrement of `curr_size` in `remove` executes only when
the table holds at least one entry. -/
theorem claim_C9_totality (m : HashMap K V) (k : K) (hR : Reachable hash_key m) :
    ((HashMap.position hash_key k : Fin DEFAULT_MAX_SIZE) : Nat)
        = hash_key k % DEFAULT_MAX_SIZE
  ∧ ((HashMap.position hash_key k : Fin DEFAULT_MAX_SIZE) : Nat) < DEFAULT_MAX_SIZE
  ∧ ((HashMap.remove hash_key m k).1.isSome → 1 ≤ m.curr_size) := by
  refine ⟨rfl, (HashMap.position hash_key k).isLt, ?_⟩
  intro hs
  rw [remove_fst] at hs
  exact one_le_curr_size_of_get_isSome hash_key m k (reachable_wf hash_key m hR) hs

theorem claim_C9_witness :
    ((HashMap.position idHash 300 : Fin DEFAULT_MAX_SIZE) : Nat)
        = idHash 300 % DEFAULT_MAX_SIZE
  ∧ ((HashMap.position idHash 300 : Fin DEFAULT_MAX_SIZE) : Nat) < DEFAULT_MAX_SIZE
  ∧ 1 ≤ exampleTable.curr_size := by
  have hR : Reachable idHash exampleTable :=
    Reachable.insert HashMap.new 0 5 Reachable.new
  have h300 := claim_C9_totality idHash exampleTable 300 hR
  have h0 := claim_C9_totality idHash exampleTable 0 hR
  exact ⟨h300.1, h300.2.1, h0.2.2 (by decide)⟩

/-- Claim C10: within each collision chain, entries occur in first-insertion
order: insert of a fresh key appends at the chain's tail, insert on an
existing key leaves every chain's key sequence unchanged, and remove deletes
exactly the first (unique) matching entry, preserving the relative order of
the remaining entries (`List.eraseP`). -/
theorem claim_C10_chain_order (m : HashMap K V) (k : K) (v : V) :
    (HashMap.get hash_key m k = none →
      ∀ i, slotList (HashMap.insert hash_key m k v).2 i
        = if i = HashMap.position hash_key k then slotList m i ++ [(k, v)]
          else slotList m i)
  ∧ ((HashMap.get hash_key m k).isSome →
      ∀ i, (slotList (HashMap.insert hash_key m k v).2 i).map Prod.fst
        = (slotList m i).map Prod.fst)
  ∧ (∀ i, slotList (HashMap.remove hash_key m k).2 i
      = if i = HashMap.position hash_key k
        then (slotList m i).eraseP (fun q => q.1 = k) else slotList m i) := by
  refine ⟨?_, ?_, ?_⟩
  · intro hget i
    cases hp : m.array (HashMap.position hash_key k) with
    | none =>
      by_cases hip : i = HashMap.position hash_key k
      · subst hip
        simp [HashMap.insert, hp, HashMap.insert_new_value, Function.update_same,
          slotList, hp]
      · simp [HashMap.insert, hp, HashMap.insert_new_value,
          Function.update_noteq hip, slotList, hip]
    | some head =>
      rw [HashMap.get, hp, findInSlot_some] at hget
      by_cases hip : i = HashMap.position hash_key k
      · subst hip
        simp [HashMap.insert, hp, HashMap.update_or_link_new_val, Function.update_same,
          slotList, hp, toList_updateOrLink_of_none k v head hget]
      · simp [HashMap.insert, hp, HashMap.update_or_link_new_val,
          Function.update_noteq hip, slotList, hip]
  · intro hget i
    cases hp : m.array (HashMap.position hash_key k) with
    | none =>
      rw [HashMap.get, hp, findInSlot_none] at hget
      exact absurd hget (by simp)
    | some head =>
      rw [HashMap.get, hp, findInSlot_some] at hget
      by_cases hip : i = HashMap.position hash_key k
      · subst hip
        simp [HashMap.insert, hp, HashMap.update_or_link_new_val, Function.update_same,
          slotList, hp, keys_updateOrLink_of_isSome k v head hget]
      · simp [HashMap.insert, hp, HashMap.update_or_link_new_val,
          Function.update_noteq hip, slotList]
  · intro i
    cases hp : m.array (HashMap.position hash_key k) with
    | none =>
      by_cases hip : i = HashMap.position hash_key k
      · subst hip
        simp [HashMap.remove, hp, slotList, hp]
      · simp [HashMap.remove, hp, slotList, hip]
    | some head =>
      cases hfind : head.find k with
      | none =>
        have hnotin := (find_eq_none_iff k head).mp hfind
        by_cases hip : i = HashMap.position hash_key k
        · subst hip
          have herase : head.toList.eraseP (fun q => q.1 = k) = head.toList := by
            refine List.eraseP_of_forall_not ?_
            intro a ha
            simp only [decide_eq_true_eq]
            intro hc
            exact hnotin (hc ▸ List.mem_map_of_mem Prod.fst ha)
          simp [HashMap.remove, hp, removeFromChain_fst, hfind, slotList, hp, herase]
        · simp [HashMap.remove, hp, removeFromChain_fst, hfind, slotList, hip]
      | some v0 =>
        by_cases hip : i = HashMap.position hash_key k
        · subst hip
          simp [HashMap.remove, hp, removeFromChain_fst, hfind, Function.update_same,
            slotList, hp, chainList_removeFromChain]
        · simp [HashMap.remove, hp, removeFromChain_fst, hfind,
            Function.update_noteq hip, slotList, hip]

theorem claim_C10_witness :
    HashMap.get idHash exampleTable 256 = none
  ∧ slotList (HashMap.insert idHash exampleTable 256 9).2 (HashMap.position idHash 256)
      = slotList exampleTable (HashMap.position idHash 256) ++ [(256, 9)]
  ∧ (HashMap.get idHash exampleTable 0).isSome
  ∧ (slotList (HashMap.insert idHash exampleTable 0 9).2
        (HashMap.position idHash 0)).map Prod.fst
      = (slotList exampleTable (HashMap.position idHash 0)).map Prod.fst
  ∧ slotList (HashMap.remove idHash exampleTable 0).2 (HashMap.position idHash 0)
      = (slotList exampleTable (HashMap.position idHash 0)).eraseP (fun q => q.1 = 0) := by
  have ha := (claim_C10_chain_order idHash exampleTable 256 9).1 (by decide)
    (HashMap.position idHash 256)
  have hb := (claim_C10_chain_order idHash exampleTable 0 9).2.1 (by decide)
    (HashMap.position idHash 0)
  have hc := (claim_C10_chain_order idHash exampleTable 0 9).2.2
    (HashMap.position idHash 0)
  refine ⟨by decide, ?_, by decide, hb, ?_⟩
  · simpa using ha
  · simpa using hc

end Table

end HashRs
